import Mathlib

/-!
# Verification of the card-record extractor

Shallow embedding of the record-processing core of `telegram_card_bot.py`:
prefix filtering (`extract_matching_cards`), line parsing
(`read_card_numbers_from_file`), the per-user pending-request state machine
(`search_cards` / `handle_document`), and the prefix statistics
(`stats_command`).  Strings are modelled by Lean `String` (a wrapper around
`List Char`, matching Python's sequence-of-code-points view of `str`).
-/

namespace CardBot

/-- Python `s.startswith(pre)`: `pre` is a prefix of `s`
(exact character comparison, case sensitive, no normalization). -/
def startswith (s pre : String) : Bool :=
  pre.data.isPrefixOf s.data

/-- Python `s.endswith(suf)`: `suf` is a suffix of `s`. -/
def endswith (s suf : String) : Bool :=
  suf.data.isSuffixOf s.data

/-- Source `extract_matching_cards(card_numbers, prefix)`:
`[card for card in card_numbers if card.startswith(prefix)]`. -/
def extract_matching_cards (card_numbers : List String) (pfx : String) : List String :=
  card_numbers.filter (fun card => startswith card pfx)

lemma startswith_empty (s : String) : startswith s "" = true := by
  simp [startswith]

lemma extract_matching_cards_empty (R : List String) :
    extract_matching_cards R "" = R :=
  List.filter_eq_self.mpr fun c _ => startswith_empty c

lemma mem_extract_matching_cards {R : List String} {p : String} {c : String}
    (hc : c ∈ extract_matching_cards R p) : startswith c p = true :=
  (List.mem_filter.mp hc).2

/-- The line-boundary characters of Python `str.splitlines`:
`\n`, `\r` (and the pair `\r\n`, handled in `splitlinesL`), `\v`, `\f`,
file/group/record separators, NEL, and the Unicode line/paragraph
separators. -/
def isLineBreak (c : Char) : Bool :=
  c = '\n' || c = '\r' || c = '\x0b' || c = '\x0c' ||
    c = '\x1c' || c = '\x1d' || c = '\x1e' || c = '\x85' ||
    c = '\u2028' || c = '\u2029'

/-- The characters removed by Python `str.strip()` (Python's `str.isspace`
set restricted to the code points that can appear here: ASCII whitespace,
the separator control characters, NEL and NBSP). -/
def isPySpace (c : Char) : Bool :=
  c = ' ' || c = '\t' || c = '\n' || c = '\x0b' || c = '\x0c' || c = '\r' ||
    c = '\x1c' || c = '\x1d' || c = '\x1e' || c = '\x1f' || c = '\x85' ||
    c = '\xa0'

/-- Python `str.splitlines` on the underlying character list: split at each
line-boundary character, treating `\r\n` as a single boundary, and do not
produce a final empty line for a trailing boundary. -/
def splitlinesL : List Char → List (List Char)
  | [] => []
  | c :: rest =>
    if isLineBreak c then
      match rest with
      | [] => [[]]
      | d :: rest2 =>
        if c = '\r' ∧ d = '\n' then [] :: splitlinesL rest2
        else [] :: splitlinesL (d :: rest2)
    else
      match splitlinesL rest with
      | [] => [[c]]
      | l :: ls => (c :: l) :: ls

/-- Python `str.strip()` on the underlying character list: remove leading
and trailing whitespace. -/
def pyStripL (l : List Char) : List Char :=
  ((l.dropWhile isPySpace).reverse.dropWhile isPySpace).reverse

/-- Python `s.splitlines()`. -/
def splitlines (s : String) : List String :=
  (splitlinesL s.data).map String.mk

/-- Python `s.strip()`. -/
def pyStrip (s : String) : String :=
  String.mk (pyStripL s.data)

/-- Source `read_card_numbers_from_file`, lines 44-45:
`file.read().splitlines()` followed by
`[card.strip() for card in card_numbers if card.strip()]`
(strip every line, keep the non-empty results, in order). -/
def cleanLines (s : String) : List String :=
  ((splitlines s).map pyStrip).filter (fun t => t ≠ "")

/-- Source `read_card_numbers_from_file(file_path)`: the payload is `none`
when the file is missing (`FileNotFoundError` is caught and `[]` returned),
otherwise the file's text content. -/
def read_card_numbers_from_file : Option String → List String
  | none => []
  | some payload => cleanLines payload

lemma dropWhile_head_not {p : Char → Bool} {L : List Char} {c : Char}
    {l' : List Char} (h : L.dropWhile p = c :: l') : p c = false := by
  induction L with
  | nil => simp at h
  | cons a as ih =>
    rw [List.dropWhile_cons] at h
    by_cases hp : p a
    · rw [if_pos hp] at h
      exact ih h
    · rw [if_neg hp] at h
      cases h
      simpa using hp

lemma dropWhile_dropWhile (p : Char → Bool) (x : List Char) :
    (x.dropWhile p).dropWhile p = x.dropWhile p := by
  cases h : x.dropWhile p with
  | nil => simp
  | cons c t =>
    rw [List.dropWhile_cons, if_neg]
    simp [dropWhile_head_not h]

lemma dropWhile_eq_strip_append (l : List Char) :
    l.dropWhile isPySpace =
      pyStripL l ++ ((l.dropWhile isPySpace).reverse.takeWhile isPySpace).reverse := by
  have h0 : (l.dropWhile isPySpace).reverse.takeWhile isPySpace ++
      (l.dropWhile isPySpace).reverse.dropWhile isPySpace =
      (l.dropWhile isPySpace).reverse :=
    List.takeWhile_append_dropWhile isPySpace ((l.dropWhile isPySpace).reverse)
  have h1 : l.dropWhile isPySpace =
      ((l.dropWhile isPySpace).reverse.takeWhile isPySpace ++
        (l.dropWhile isPySpace).reverse.dropWhile isPySpace).reverse := by
    rw [h0, List.reverse_reverse]
  rw [List.reverse_append] at h1
  exact h1

lemma pyStripL_dropWhile (l : List Char) :
    (pyStripL l).dropWhile isPySpace = pyStripL l := by
  cases hR : pyStripL l with
  | nil => simp
  | cons c t =>
    have hA : l.dropWhile isPySpace =
        c :: (t ++ ((l.dropWhile isPySpace).reverse.takeWhile isPySpace).reverse) := by
      have := dropWhile_eq_strip_append l
      rw [hR] at this
      simpa using this
    have hc := dropWhile_head_not hA
    rw [List.dropWhile_cons, if_neg (by simp [hc])]

lemma pyStripL_reverse_dropWhile (l : List Char) :
    ((pyStripL l).reverse.dropWhile isPySpace).reverse = pyStripL l := by
  have : (pyStripL l).reverse =
      (l.dropWhile isPySpace).reverse.dropWhile isPySpace := by
    rw [pyStripL, List.reverse_reverse]
  rw [this, dropWhile_dropWhile]
  rw [pyStripL]

lemma pyStripL_idem (l : List Char) : pyStripL (pyStripL l) = pyStripL l := by
  rw [pyStripL, pyStripL_dropWhile, pyStripL_reverse_dropWhile]

lemma pyStrip_idem (s : String) : pyStrip (pyStrip s) = pyStrip s := by
  show String.mk (pyStripL (pyStripL s.data)) = String.mk (pyStripL s.data)
  rw [pyStripL_idem]

lemma mem_cleanLines {s rec : String} (h : rec ∈ cleanLines s) :
    rec ≠ "" ∧ pyStrip rec = rec ∧ rec ∈ (splitlines s).map pyStrip := by
  have h1 := List.mem_filter.mp h
  have hne : rec ≠ "" := by simpa using h1.2
  refine ⟨hne, ?_, h1.1⟩
  obtain ⟨x, _, rfl⟩ := List.mem_map.mp h1.1
  exact pyStrip_idem x

/-- One entry of the `user_contexts` dict:
`{'prefix': prefix, 'waiting_for_file': True}` (source line 147). -/
structure UserCtx where
  pfx : String
  waiting_for_file : Bool
deriving DecidableEq

/-- The module-level dict `user_contexts = {}` (source line 17), as a map
from a user id to the optionally stored entry (`none` = key absent). -/
def UserContexts : Type := Nat → Option UserCtx

/-- Dict assignment / deletion at one key (`user_contexts[uid] = c`,
`del user_contexts[uid]` with `c = none`). -/
def setCtx (m : UserContexts) (uid : Nat) (c : Option UserCtx) : UserContexts :=
  fun u => if u = uid then c else m u

/-- An uploaded Telegram document as `handle_document` sees it: its file
name, declared size in bytes, and the downloaded text content. -/
structure TgDocument where
  file_name : String
  file_size : Nat
  payload : String
deriving DecidableEq

/-- The user-visible outcome of one `handle_document` invocation, one
constructor per distinct reply in the source. -/
inductive BotReply where
  /-- "Please upload a .txt file" (source line 167). -/
  | errorNotTxt : BotReply
  /-- "File too large!" (source line 179). -/
  | errorTooLarge : BotReply
  /-- "The uploaded file appears to be empty or contains no valid card
  numbers." (source line 193): the spec's `EmptyInputError`. -/
  | errorEmptyInput : BotReply
  /-- "No cards found starting with prefix" (source line 207). -/
  | noMatch (pfx : String) (total : Nat) : BotReply
  /-- The results document plus caption (source lines 218-235). -/
  | results (pfx : String) (matching : List String) (fileContent : String)
      (total : Nat) : BotReply
  /-- "File uploaded successfully" for an upload with no pending search
  (source line 249). -/
  | uploadedOk (total : Nat) (size : Nat) : BotReply
deriving DecidableEq

/-- The results file written by `handle_document` (source lines 220-222):
`f.write(card + '\n')` for each matching card in order — one record per
line, a trailing newline after each, no header. -/
def writeOut : List String → String
  | [] => ""
  | card :: rest => card ++ "\n" ++ writeOut rest

/-- Source `handle_document(update, context)` (lines 159-268), with the
transport plumbing (download, temp files, message editing) abstracted away:
it consumes the current `user_contexts`, the sender's user id and the
uploaded document, and yields the new `user_contexts` plus the reply. -/
def handle_document (ctxs : UserContexts) (uid : Nat) (doc : TgDocument) :
    UserContexts × BotReply :=
  if endswith doc.file_name ".txt" = false then
    (ctxs, .errorNotTxt)
  else if doc.file_size > 10 * 1024 * 1024 then
    (ctxs, .errorTooLarge)
  else
    let card_numbers := cleanLines doc.payload
    if card_numbers = [] then
      (ctxs, .errorEmptyInput)
    else
      match ctxs uid with
      | some c =>
        if c.waiting_for_file then
          let matching := extract_matching_cards card_numbers c.pfx
          if matching = [] then
            (setCtx ctxs uid none, .noMatch c.pfx card_numbers.length)
          else
            (setCtx ctxs uid none,
              .results c.pfx matching (writeOut matching) card_numbers.length)
        else (ctxs, .uploadedOk card_numbers.length doc.file_size)
      | none => (ctxs, .uploadedOk card_numbers.length doc.file_size)

/-- Source `search_cards(update, context)` (lines 134-157): with no
arguments it replies with a usage error and leaves the state alone;
otherwise it stores `{'prefix': args[0], 'waiting_for_file': True}` for the
sender, overwriting any previous entry, and returns the acknowledged
prefix. -/
def search_cards (ctxs : UserContexts) (uid : Nat) (args : List String) :
    UserContexts × Option String :=
  match args with
  | [] => (ctxs, none)
  | a :: _ => (setCtx ctxs uid (some ⟨a, true⟩), some a)

lemma setCtx_ne {m : UserContexts} {uid B : Nat} {c : Option UserCtx}
    (hB : B ≠ uid) : setCtx m uid c B = m B := by
  simp [setCtx, hB]

lemma splitlinesL_break_cons {c : Char} (hbr : isLineBreak c = true)
    (hcr : c ≠ '\r') (rest : List Char) :
    splitlinesL (c :: rest) = [] :: splitlinesL rest := by
  cases rest with
  | nil => simp [splitlinesL, hbr]
  | cons d r2 =>
    simp only [splitlinesL]
    rw [if_pos hbr, if_neg (by intro h; exact hcr h.1)]

lemma splitlinesL_nonbreak {c : Char} (hc : isLineBreak c = false)
    (rest : List Char) :
    splitlinesL (c :: rest) = match splitlinesL rest with
      | [] => [[c]]
      | l :: ls => (c :: l) :: ls := by
  cases rest with
  | nil => simp [splitlinesL, hc]
  | cons d r2 =>
    simp only [splitlinesL]
    rw [if_neg (by simp [hc])]

/-- Appending one break-free line and a newline on the left of a payload
prepends exactly that line to the split. -/
lemma splitlinesL_append (a t : List Char)
    (ha : ∀ c ∈ a, isLineBreak c = false) :
    splitlinesL (a ++ '\n' :: t) = a :: splitlinesL t := by
  induction a with
  | nil => exact splitlinesL_break_cons (by decide) (by decide) t
  | cons c a' ih =>
    have hc : isLineBreak c = false := ha c (List.mem_cons_self c a')
    have ih' := ih fun x hx => ha x (List.mem_cons_of_mem c hx)
    rw [List.cons_append, splitlinesL_nonbreak hc, ih']

/-- No line produced by `splitlinesL` contains a line-boundary character. -/
lemma mem_splitlinesL :
    ∀ L : List Char, ∀ ln ∈ splitlinesL L, ∀ c ∈ ln, isLineBreak c = false := by
  intro L
  induction L using splitlinesL.induct with
  | case1 => intro ln h; simp [splitlinesL] at h
  | case2 d hbr =>
    intro ln h c hc
    have : splitlinesL [d] = [[]] := by simp [splitlinesL, hbr]
    rw [this] at h
    simp at h
    subst h
    simp at hc
  | case3 d hbr d1 rest2 hpair ih =>
    intro ln h c hc
    have : splitlinesL (d :: d1 :: rest2) = [] :: splitlinesL rest2 := by
      simp only [splitlinesL]
      rw [if_pos hbr, if_pos hpair]
    rw [this] at h
    rcases List.mem_cons.mp h with rfl | h'
    · simp at hc
    · exact ih ln h' c hc
  | case4 d hbr d1 rest2 hpair ih =>
    intro ln h c hc
    have : splitlinesL (d :: d1 :: rest2) = [] :: splitlinesL (d1 :: rest2) := by
      simp only [splitlinesL]
      rw [if_pos hbr, if_neg hpair]
    rw [this] at h
    rcases List.mem_cons.mp h with rfl | h'
    · simp at hc
    · exact ih ln h' c hc
  | case5 d rest2 hbr hsp ih =>
    intro ln h c hc
    have hd : isLineBreak d = false := by
      cases hv : isLineBreak d
      · rfl
      · exact absurd hv hbr
    rw [splitlinesL_nonbreak hd, hsp] at h
    simp at h
    subst h
    simp at hc
    subst hc
    exact hd
  | case6 d rest2 hbr l ls hsp ih =>
    intro ln h c hc
    have hd : isLineBreak d = false := by
      cases hv : isLineBreak d
      · rfl
      · exact absurd hv hbr
    rw [splitlinesL_nonbreak hd, hsp] at h
    rcases List.mem_cons.mp h with rfl | h'
    · rcases List.mem_cons.mp hc with rfl | hc'
      · exact hd
      · exact ih l (by rw [hsp]; exact List.mem_cons_self l ls) c hc'
    · exact ih ln (by rw [hsp]; exact List.mem_cons_of_mem l h') c hc

lemma mk_data (s : String) : String.mk s.data = s := rfl

lemma mem_pyStripL {c : Char} {l : List Char} (h : c ∈ pyStripL l) : c ∈ l := by
  unfold pyStripL at h
  rw [List.mem_reverse] at h
  have h1 := List.dropWhile_subset isPySpace h
  rw [List.mem_reverse] at h1
  exact List.dropWhile_subset isPySpace h1

/-- A well-formed Record in the sense of the data model: one non-empty,
already-trimmed line with no embedded line-boundary character.  Every
element of a parsed record set satisfies this (`mem_cleanLines_isRecord`). -/
def IsRecord (r : String) : Prop :=
  r ≠ "" ∧ pyStrip r = r ∧ ∀ c ∈ r.data, isLineBreak c = false

instance decIsRecord : DecidablePred IsRecord := fun r =>
  decidable_of_iff
    (r ≠ "" ∧ pyStrip r = r ∧ ∀ c ∈ r.data, isLineBreak c = false) Iff.rfl

/-- The parser only produces well-formed Records. -/
lemma mem_cleanLines_isRecord {s r : String} (h : r ∈ cleanLines s) :
    IsRecord r := by
  obtain ⟨hne, hstrip, hmem⟩ := mem_cleanLines h
  refine ⟨hne, hstrip, ?_⟩
  obtain ⟨x, hx, rfl⟩ := List.mem_map.mp hmem
  obtain ⟨ln, hln, rfl⟩ := List.mem_map.mp hx
  intro c hc
  exact mem_splitlinesL s.data ln hln c (mem_pyStripL hc)

/-- One execution of `prefix_counts[prefix] = prefix_counts.get(prefix, 0) + 1`
(source line 117) on a Python dict modelled as an insertion-ordered
association list: an existing key is updated in place, a new key is appended
at the end (Python 3.7+ dict semantics). -/
def bump : List (String × Nat) → String → List (String × Nat)
  | [], p => [(p, 1)]
  | (q, c) :: rest, p =>
    if q = p then (q, c + 1) :: rest else (q, c) :: bump rest p

/-- The loop `for card in card_numbers[:5000]: if len(card) >= 4: ...`
(source lines 114-117), with `acc` the dict built so far. -/
def prefixCountsGo (acc : List (String × Nat)) :
    List String → List (String × Nat)
  | [] => acc
  | card :: rest =>
    prefixCountsGo
      (if 4 ≤ card.data.length then bump acc (String.mk (card.data.take 4))
       else acc) rest

/-- The `prefix_counts` dict of `stats_command` (source lines 113-117):
frequency of the first 4 characters of each record, over at most the first
5000 records, skipping records shorter than 4 characters. -/
def prefixCounts (cards : List String) : List (String × Nat) :=
  prefixCountsGo [] (cards.take 5000)

/-- Specification-side view: the 4-character prefixes of the records of
length at least 4, in input order. -/
def pfxSeqAll (cs : List String) : List String :=
  (cs.filter (fun c => 4 ≤ c.data.length)).map (fun c => String.mk (c.data.take 4))

/-- Specification-side view: the analyzed prefixes — first 4 characters of
each record of length ≥ 4 among the first 5000 records, in input order. -/
def pfxSeq (cards : List String) : List String :=
  pfxSeqAll (cards.take 5000)

/-- First occurrences of a list's elements, in order of first encounter. -/
def dedupFirst : List String → List String
  | [] => []
  | x :: xs => x :: (dedupFirst xs).filter (fun y => y ≠ x)

lemma mem_dedupFirst : ∀ (l : List String) (a : String),
    a ∈ dedupFirst l ↔ a ∈ l := by
  intro l
  induction l with
  | nil => intro a; simp [dedupFirst]
  | cons x xs ih =>
    intro a
    simp only [dedupFirst, List.mem_cons, List.mem_filter]
    constructor
    · rintro (rfl | ⟨h1, _⟩)
      · exact Or.inl rfl
      · exact Or.inr ((ih a).mp h1)
    · rintro (rfl | h)
      · exact Or.inl rfl
      · by_cases hax : a = x
        · exact Or.inl hax
        · exact Or.inr ⟨(ih a).mpr h, by simpa using hax⟩

lemma dedupFirst_filter (pred : String → Bool) :
    ∀ l : List String, dedupFirst (l.filter pred) = (dedupFirst l).filter pred := by
  intro l
  induction l with
  | nil => simp [dedupFirst]
  | cons x xs ih =>
    by_cases hx : pred x
    · rw [List.filter_cons, if_pos hx]
      show dedupFirst (x :: xs.filter pred) = (dedupFirst (x :: xs)).filter pred
      simp only [dedupFirst]
      rw [List.filter_cons, if_pos hx, ih]
      congr 1
      rw [List.filter_filter, List.filter_filter]
      apply List.filter_congr
      intro a _
      rw [Bool.and_comm]
    · rw [List.filter_cons, if_neg (by simp [hx])]
      show dedupFirst (xs.filter pred) = (dedupFirst (x :: xs)).filter pred
      simp only [dedupFirst]
      rw [List.filter_cons, if_neg (by simp [hx]), ih, List.filter_filter]
      apply List.filter_congr
      intro a ha
      by_cases hax : a = x
      · subst hax
        simp [hx]
      · simp [hax]

lemma keys_bump_of_mem {acc : List (String × Nat)} {p : String}
    (h : p ∈ acc.map Prod.fst) :
    (bump acc p).map Prod.fst = acc.map Prod.fst := by
  induction acc with
  | nil => simp at h
  | cons qc rest ih =>
    obtain ⟨q, c⟩ := qc
    by_cases hq : q = p
    · subst hq
      simp [bump]
    · simp only [List.map_cons, List.mem_cons] at h
      rcases h with h | h
      · exact absurd h.symm hq
      · simp only [bump, if_neg hq, List.map_cons]
        rw [ih h]

lemma bump_of_mem {acc : List (String × Nat)} {p : String}
    (hnd : (acc.map Prod.fst).Nodup) (h : p ∈ acc.map Prod.fst) :
    bump acc p =
      acc.map (fun qc => if qc.1 = p then (qc.1, qc.2 + 1) else qc) := by
  induction acc with
  | nil => simp at h
  | cons qc rest ih =>
    obtain ⟨q, c⟩ := qc
    rw [List.map_cons] at hnd
    by_cases hq : q = p
    · subst hq
      simp only [bump, if_pos rfl, List.map_cons, if_pos]
      have hnotin : ∀ qc ∈ rest, qc.1 ≠ q := by
        intro qc hqc hfst
        have hmm : qc.1 ∈ List.map Prod.fst rest :=
          List.mem_map_of_mem Prod.fst hqc
        rw [hfst] at hmm
        exact (List.nodup_cons.mp hnd).1 hmm
      have : rest.map (fun qc => if qc.1 = q then (qc.1, qc.2 + 1) else qc) =
          rest.map id := by
        apply List.map_congr_left
        intro qc hqc
        rw [if_neg (hnotin qc hqc)]
        rfl
      rw [this, List.map_id]
    · simp only [List.map_cons, List.mem_cons] at h
      rcases h with h | h
      · exact absurd h.symm hq
      · simp only [bump, if_neg hq, List.map_cons, if_neg hq]
        rw [ih (List.nodup_cons.mp hnd).2 h]

lemma bump_of_not_mem {acc : List (String × Nat)} {p : String}
    (h : p ∉ acc.map Prod.fst) :
    bump acc p = acc ++ [(p, 1)] := by
  induction acc with
  | nil => simp [bump]
  | cons qc rest ih =>
    obtain ⟨q, c⟩ := qc
    simp only [List.map_cons, List.mem_cons] at h
    push_neg at h
    simp only [bump]
    rw [if_neg (by intro hq; exact h.1 hq.symm), ih h.2]
    rfl

lemma pfxSeqAll_cons_ge {card : String} (rest : List String)
    (hlen : 4 ≤ card.data.length) :
    pfxSeqAll (card :: rest) =
      String.mk (card.data.take 4) :: pfxSeqAll rest := by
  simp only [pfxSeqAll, List.filter_cons, decide_eq_true hlen, if_pos,
    List.map_cons]

lemma pfxSeqAll_cons_lt {card : String} (rest : List String)
    (hlen : ¬ 4 ≤ card.data.length) :
    pfxSeqAll (card :: rest) = pfxSeqAll rest := by
  have hd : (decide (4 ≤ card.data.length)) = false := decide_eq_false hlen
  simp only [pfxSeqAll, List.filter_cons, hd, Bool.false_eq_true, if_false]

lemma prefixCountsGo_eq_foldl (cs : List String) :
    ∀ acc, prefixCountsGo acc cs = List.foldl bump acc (pfxSeqAll cs) := by
  induction cs with
  | nil => intro acc; simp [prefixCountsGo, pfxSeqAll]
  | cons card rest ih =>
    intro acc
    by_cases hlen : 4 ≤ card.data.length
    · rw [pfxSeqAll_cons_ge rest hlen, List.foldl_cons]
      simp only [prefixCountsGo]
      rw [if_pos hlen]
      exact ih _
    · rw [pfxSeqAll_cons_lt rest hlen]
      simp only [prefixCountsGo]
      rw [if_neg hlen]
      exact ih _

lemma count_cons_ne {q p : String} (ps' : List String) (h : q ≠ p) :
    (p :: ps').count q = ps'.count q := by
  rw [List.count_cons]
  simp [Ne.symm h]

lemma foldl_bump_eq : ∀ (ps : List String) (acc : List (String × Nat)),
    (acc.map Prod.fst).Nodup →
    List.foldl bump acc ps =
      acc.map (fun qc => (qc.1, qc.2 + ps.count qc.1)) ++
        (dedupFirst (ps.filter (fun p => p ∉ acc.map Prod.fst))).map
          (fun p => (p, ps.count p)) := by
  intro ps
  induction ps with
  | nil =>
    intro acc _
    simp [dedupFirst]
  | cons p ps' ih =>
    intro acc hnd
    rw [List.foldl_cons]
    by_cases hmem : p ∈ acc.map Prod.fst
    · have hnd' : ((bump acc p).map Prod.fst).Nodup := by
        rw [keys_bump_of_mem hmem]; exact hnd
      rw [ih (bump acc p) hnd', keys_bump_of_mem hmem]
      congr 1
      · rw [bump_of_mem hnd hmem, List.map_map]
        apply List.map_congr_left
        intro qc _
        by_cases h : qc.1 = p
        · simp only [Function.comp_apply, if_pos h, List.count_cons, h,
            Prod.mk.injEq, true_and, beq_self_eq_true, eq_self_iff_true,
            if_true]
          omega
        · simp only [Function.comp_apply, if_neg h]
          rw [count_cons_ne ps' h]
      · rw [List.filter_cons, if_neg (by simp [hmem])]
        apply List.map_congr_left
        intro q hq
        have hq' : q ∈ ps'.filter (fun x => x ∉ acc.map Prod.fst) :=
          (mem_dedupFirst _ q).mp hq
        have hqk : q ∉ acc.map Prod.fst := by
          have := (List.mem_filter.mp hq').2
          simpa using this
        have hqp : q ≠ p := fun hqp => hqk (hqp ▸ hmem)
        rw [count_cons_ne ps' hqp]
    · have hbk : bump acc p = acc ++ [(p, 1)] := bump_of_not_mem hmem
      have hkeys : (bump acc p).map Prod.fst = acc.map Prod.fst ++ [p] := by
        rw [hbk, List.map_append]
        rfl
      have hnd' : ((bump acc p).map Prod.fst).Nodup := by
        rw [hkeys, List.nodup_append]
        refine ⟨hnd, List.nodup_singleton p, ?_⟩
        intro a ha hap
        rw [List.mem_singleton] at hap
        subst hap
        exact hmem ha
      have hne : ∀ qc ∈ acc, qc.1 ≠ p := by
        intro qc hqc h
        exact hmem (h ▸ List.mem_map_of_mem Prod.fst hqc)
      have hA : (acc ++ [(p, 1)]).map
            (fun qc : String × Nat => (qc.1, qc.2 + ps'.count qc.1)) =
          acc.map (fun qc : String × Nat =>
              (qc.1, qc.2 + (p :: ps').count qc.1)) ++
            [(p, (p :: ps').count p)] := by
        rw [List.map_append]
        congr 1
        · apply List.map_congr_left
          intro qc hqc
          rw [count_cons_ne ps' (hne qc hqc)]
        · simp only [List.map_cons, List.map_nil, List.count_cons,
            beq_self_eq_true, eq_self_iff_true, if_true]
          rw [Nat.add_comm]
      have e1 : ps'.filter (fun x => x ∉ acc.map Prod.fst ++ [p]) =
          (ps'.filter (fun x => x ∉ acc.map Prod.fst)).filter
            (fun y => y ≠ p) := by
        rw [List.filter_filter]
        apply List.filter_congr
        intro a _
        by_cases hak : a ∈ acc.map Prod.fst
        · simp [hak]
        · by_cases hap : a = p
          · simp [hap]
          · simp [hak, hap]
      have hB : (dedupFirst (ps'.filter
              (fun x => x ∉ acc.map Prod.fst ++ [p]))).map
            (fun q => (q, ps'.count q)) =
          ((dedupFirst (ps'.filter (fun x => x ∉ acc.map Prod.fst))).filter
              (fun y => y ≠ p)).map (fun q => (q, (p :: ps').count q)) := by
        rw [e1, dedupFirst_filter]
        apply List.map_congr_left
        intro q hq
        have hqp : q ≠ p := by
          have := (List.mem_filter.mp hq).2
          simpa using this
        rw [count_cons_ne ps' hqp]
      have hded : dedupFirst (p :: ps'.filter
            (fun x => x ∉ acc.map Prod.fst)) =
          p :: (dedupFirst (ps'.filter (fun x => x ∉ acc.map Prod.fst))).filter
            (fun y => y ≠ p) := rfl
      rw [ih (bump acc p) hnd', hkeys, hbk]
      rw [List.filter_cons, if_pos (by exact decide_eq_true hmem), hded,
        List.map_cons, hA, hB]
      simp [List.append_assoc]

lemma prefixCounts_eq (cards : List String) :
    prefixCounts cards =
      (dedupFirst (pfxSeq cards)).map
        (fun p => (p, (pfxSeq cards).count p)) := by
  rw [prefixCounts, prefixCountsGo_eq_foldl, foldl_bump_eq _ [] (by simp)]
  simp [pfxSeq]

/-- The sort relation of `sorted(prefix_counts.items(), key=lambda x: x[1],
reverse=True)` (source line 120): descending by count. -/
def countGe (a b : String × Nat) : Prop := b.2 ≤ a.2

instance : DecidableRel countGe := fun a b =>
  inferInstanceAs (Decidable (b.2 ≤ a.2))

instance : IsTotal (String × Nat) countGe := ⟨fun a b => le_total b.2 a.2⟩

instance : IsTrans (String × Nat) countGe :=
  ⟨fun _ _ _ h1 h2 => le_trans h2 h1⟩

/-- The top-`topK` prefix statistics of `stats_command` (source line 120):
the counted prefixes sorted by descending count with a stable sort (Python's
`sorted` is stable; `List.insertionSort` with `countGe` inserts each element
before the first element of not-larger count, which is the same stable
order), truncated to the first `topK`. -/
def summarize (cards : List String) (topK : Nat) : List (String × Nat) :=
  (List.insertionSort countGe (prefixCounts cards)).take topK

lemma filter_orderedInsert (x : String × Nat) (n : Nat) :
    ∀ l : List (String × Nat),
      (List.orderedInsert countGe x l).filter (fun y => y.2 = n) =
        if x.2 = n then x :: l.filter (fun y => y.2 = n)
        else l.filter (fun y => y.2 = n) := by
  intro l
  induction l with
  | nil =>
    by_cases hx : x.2 = n <;> simp [List.orderedInsert, List.filter_cons, hx]
  | cons y ys ih =>
    simp only [List.orderedInsert]
    by_cases hr : countGe x y
    · rw [if_pos hr]
      by_cases hx : x.2 = n <;> by_cases hy : y.2 = n <;>
        simp [List.filter_cons, hx, hy]
    · rw [if_neg hr]
      by_cases hy : y.2 = n
      · by_cases hx : x.2 = n
        · exfalso
          exact hr (le_of_eq (hy.trans hx.symm))
        · simp [List.filter_cons, hy, hx, ih]
      · simp [List.filter_cons, hy, ih]

lemma filter_insertionSort (n : Nat) :
    ∀ l : List (String × Nat),
      (List.insertionSort countGe l).filter (fun y => y.2 = n) =
        l.filter (fun y => y.2 = n) := by
  intro l
  induction l with
  | nil => rfl
  | cons x xs ih =>
    simp only [List.insertionSort]
    rw [filter_orderedInsert x n (List.insertionSort countGe xs), ih,
      List.filter_cons]
    by_cases hx : x.2 = n <;> simp [hx]


/-- `stats_command` takes the top 10 (source line 120: `[:10]`). -/
def top_prefixes (cards : List String) : List (String × Nat) :=
  summarize cards 10

/-- Writing a list of well-formed Records in the output format and re-parsing
it is the identity. -/
lemma cleanLines_writeOut :
    ∀ l : List String, (∀ r ∈ l, IsRecord r) → cleanLines (writeOut l) = l := by
  intro l
  induction l with
  | nil => intro _; rfl
  | cons r rest ih =>
    intro hl
    obtain ⟨hne, hstrip, hbrk⟩ := hl r (List.mem_cons_self r rest)
    have hdata : (writeOut (r :: rest)).data =
        r.data ++ '\n' :: (writeOut rest).data := by
      show (r ++ "\n" ++ writeOut rest).data = _
      simp [String.data_append]
    have step : cleanLines (writeOut (r :: rest)) =
        r :: cleanLines (writeOut rest) := by
      simp only [cleanLines, splitlines]
      rw [hdata, splitlinesL_append r.data (writeOut rest).data hbrk]
      simp only [List.map_cons, List.filter_cons]
      rw [mk_data, hstrip]
      simp [hne]
    rw [step, ih fun x hx => hl x (List.mem_cons_of_mem r hx)]

end CardBot

open CardBot

/-- C1: every element of `extract_matching_cards R p` starts with `p`, and the
result is a subsequence of `R` (hence preserves the relative order of `R`). -/
theorem claim1_filter_sound (R : List String) (p : String) (_hp : p ≠ "") :
    (∀ c ∈ extract_matching_cards R p, startswith c p = true) ∧
      List.Sublist (extract_matching_cards R p) R :=
  ⟨fun _ hc => mem_extract_matching_cards hc, List.filter_sublist R⟩

/-- Witness for C1 at `R = ["4000111","4000222","5000333"]`, `p = "4000"`. -/
theorem claim1_filter_sound_witness :
    (∀ c ∈ extract_matching_cards ["4000111", "4000222", "5000333"] "4000",
        startswith c "4000" = true) ∧
      List.Sublist (extract_matching_cards ["4000111", "4000222", "5000333"] "4000")
        ["4000111", "4000222", "5000333"] :=
  claim1_filter_sound ["4000111", "4000222", "5000333"] "4000" (by decide)

/-- C2 counterexample: the code has no `InvalidPrefixError` path; calling the
filter with the empty string does not fail — it returns the whole record set
(here on the concrete non-empty record set `["4000111"]`). -/
theorem claim2_empty_prefix_not_rejected :
    extract_matching_cards ["4000111"] "" = ["4000111"] := by
  decide

/-- C2 amended: calling the filter with the empty-string prefix raises no
error; it returns the record set `R` unchanged (every record trivially starts
with the empty string under `startswith` semantics). -/
theorem claim2_amended_empty_prefix_returns_all (R : List String) :
    extract_matching_cards R "" = R :=
  extract_matching_cards_empty R

/-- C8: the prefix filter is idempotent for every non-empty prefix `p`:
filtering an already-filtered record set again with the same prefix is the
identity. -/
theorem claim8_filter_idempotent (R : List String) (p : String) (_hp : p ≠ "") :
    extract_matching_cards (extract_matching_cards R p) p =
      extract_matching_cards R p :=
  List.filter_eq_self.mpr fun _ hc => mem_extract_matching_cards hc

/-- Witness for C8 at `R = ["4000111","4000222","5000333"]`, `p = "4000"`. -/
theorem claim8_filter_idempotent_witness :
    extract_matching_cards
        (extract_matching_cards ["4000111", "4000222", "5000333"] "4000") "4000" =
      extract_matching_cards ["4000111", "4000222", "5000333"] "4000" :=
  claim8_filter_idempotent ["4000111", "4000222", "5000333"] "4000" (by decide)

/-- C9: filtering with the empty-string prefix returns `R` itself unchanged
(every record matches the empty prefix) and raises no error — the function is
total. -/
theorem claim9_empty_prefix_identity (R : List String) :
    extract_matching_cards R "" = R :=
  extract_matching_cards_empty R

/-- C6: `cleanLines` (the parse step of `read_card_numbers_from_file`) splits
the payload into lines, trims each line, and drops the blank ones: on the
concrete input `"  4000\n\n5000  \n"` it yields exactly `["4000", "5000"]`,
and in general every returned record is non-empty, already trimmed, and is the
trimmed form of one of the payload's lines. -/
theorem claim6_parse_trims_and_drops_blank :
    cleanLines "  4000\n\n5000  \n" = ["4000", "5000"] ∧
      ∀ s : String, ∀ rec ∈ cleanLines s,
        rec ≠ "" ∧ pyStrip rec = rec ∧ rec ∈ (splitlines s).map pyStrip :=
  ⟨rfl, fun _ _ h => mem_cleanLines h⟩

/-- Witness for C6: the record `"4000"` of the parsed concrete payload. -/
theorem claim6_parse_trims_and_drops_blank_witness :
    cleanLines "  4000\n\n5000  \n" = ["4000", "5000"] ∧
      ("4000" ≠ "" ∧ pyStrip "4000" = "4000" ∧
        "4000" ∈ (splitlines "  4000\n\n5000  \n").map pyStrip) :=
  ⟨claim6_parse_trims_and_drops_blank.1,
    claim6_parse_trims_and_drops_blank.2 "  4000\n\n5000  \n" "4000" (by decide)⟩

/-- C3: for an accepted upload (`.txt` name, within the size limit), the
"no valid card numbers" error (`EmptyInputError`) is reported exactly when
the parsed payload yields zero records; the empty byte stream parses to zero
records; and a missing source file raises nothing — the loader reports it as
the empty record set. -/
theorem claim3_empty_input_error :
    (∀ (ctxs : UserContexts) (uid : Nat) (doc : TgDocument),
        endswith doc.file_name ".txt" = true →
        doc.file_size ≤ 10 * 1024 * 1024 →
        ((handle_document ctxs uid doc).2 = BotReply.errorEmptyInput ↔
          cleanLines doc.payload = [])) ∧
      cleanLines "" = [] ∧
      read_card_numbers_from_file none = [] := by
  refine ⟨?_, rfl, rfl⟩
  intro ctxs uid doc htxt hsize
  unfold handle_document
  rw [if_neg (by simp [htxt]), if_neg (by omega)]
  by_cases hempty : cleanLines doc.payload = []
  · simp [hempty]
  · rw [if_neg hempty]
    cases hctx : ctxs uid with
    | none => simp [hempty]
    | some c =>
      by_cases hw : c.waiting_for_file
      · by_cases hm : extract_matching_cards (cleanLines doc.payload) c.pfx = []
        · simp [hw, hm, hempty]
        · simp [hw, hm, hempty]
      · simp [hw, hempty]

/-- Witness for C3: an accepted `.txt` upload whose payload is the empty
byte stream is reported as `EmptyInputError`. -/
theorem claim3_empty_input_error_witness :
    ((handle_document (fun _ => none) 1 ⟨"cards.txt", 0, ""⟩).2 =
        BotReply.errorEmptyInput ↔ cleanLines "" = []) ∧
      cleanLines "" = [] ∧
      read_card_numbers_from_file none = [] :=
  ⟨claim3_empty_input_error.1 (fun _ => none) 1 ⟨"cards.txt", 0, ""⟩
      (by decide) (by decide),
    claim3_empty_input_error.2.1, claim3_empty_input_error.2.2⟩

/-- C4 counterexample: an actor in the AwaitingFile state (user `1` has the
pending entry `⟨"4", waiting⟩`) uploads a well-named, small payload that
parses to zero records; `handle_document` returns early and the pending
request is NOT removed, contradicting "receipt of any uploaded payload
transitions that actor back to Idle". -/
theorem claim4_upload_not_always_clearing :
    (handle_document (setCtx (fun _ => none) 1 (some ⟨"4", true⟩)) 1
        ⟨"cards.txt", 10, ""⟩).1 1 = some ⟨"4", true⟩ := by
  decide

/-- C4 amended: receipt of an *accepted* payload (a `.txt` file within the
size limit that parses to at least one record) transitions an AwaitingFile
actor back to Idle regardless of the match outcome, and a new filter request
overwrites any prior pending request for that actor (the state maps each
actor to at most one pending entry, so at most one pending request per actor
exists at any time).  Rejected payloads (wrong extension, oversized, or no
valid records) leave the pending request in place. -/
theorem claim4_amended_state_transition :
    (∀ (ctxs : UserContexts) (uid : Nat) (doc : TgDocument) (c : UserCtx),
        ctxs uid = some c →
        c.waiting_for_file = true →
        endswith doc.file_name ".txt" = true →
        doc.file_size ≤ 10 * 1024 * 1024 →
        cleanLines doc.payload ≠ [] →
        (handle_document ctxs uid doc).1 uid = none) ∧
      ∀ (ctxs : UserContexts) (uid : Nat) (a : String) (rest : List String),
        (search_cards ctxs uid (a :: rest)).1 uid = some ⟨a, true⟩ := by
  constructor
  · intro ctxs uid doc c hctx hw htxt hsize hne
    unfold handle_document
    rw [if_neg (by simp [htxt]), if_neg (by omega), if_neg hne, hctx]
    simp only [hw, if_true]
    by_cases hm : extract_matching_cards (cleanLines doc.payload) c.pfx = []
    · simp [hm, setCtx]
    · simp [hm, setCtx]
  · intro ctxs uid a rest
    simp [search_cards, setCtx]

/-- Witness for C4 (amended): user `1` is awaiting a file with prefix
`"4"`; an accepted upload containing one record clears the pending entry,
and a fresh `/search 4000` stores the new pending entry. -/
theorem claim4_amended_state_transition_witness :
    (handle_document (setCtx (fun _ => none) 1 (some ⟨"4", true⟩)) 1
        ⟨"cards.txt", 10, "4111\n"⟩).1 1 = none ∧
      (search_cards (fun _ => none) 1 ["4000"]).1 1 = some ⟨"4000", true⟩ :=
  ⟨claim4_amended_state_transition.1
      (setCtx (fun _ => none) 1 (some ⟨"4", true⟩)) 1
      ⟨"cards.txt", 10, "4111\n"⟩ ⟨"4", true⟩
      (by decide) rfl (by decide) (by decide) (by decide),
    claim4_amended_state_transition.2 (fun _ => none) 1 "4000" []⟩

/-- C10: processing an upload from actor `uid` touches at most the
pending-request entry of `uid`: every other actor's entry (presence and
stored prefix alike) is unchanged. -/
theorem claim10_upload_frame (ctxs : UserContexts) (uid : Nat)
    (doc : TgDocument) (B : Nat) (hB : B ≠ uid) :
    (handle_document ctxs uid doc).1 B = ctxs B := by
  unfold handle_document
  by_cases h1 : endswith doc.file_name ".txt" = false
  · rw [if_pos h1]
  · rw [if_neg h1]
    by_cases h2 : doc.file_size > 10 * 1024 * 1024
    · rw [if_pos h2]
    · rw [if_neg h2]
      by_cases h3 : cleanLines doc.payload = []
      · simp only [h3, if_true]
      · rw [if_neg h3]
        cases hctx : ctxs uid with
        | none => rfl
        | some c =>
          by_cases hw : c.waiting_for_file
          · simp only [hw, if_true]
            by_cases hm :
                extract_matching_cards (cleanLines doc.payload) c.pfx = []
            · simp [hm, setCtx_ne hB]
            · simp [hm, setCtx_ne hB]
          · simp [hw]

/-- Witness for C10: user `2`'s (absent) entry is untouched by user `1`'s
upload. -/
theorem claim10_upload_frame_witness :
    (handle_document (setCtx (fun _ => none) 1 (some ⟨"4", true⟩)) 1
        ⟨"cards.txt", 10, "4111\n"⟩).1 2 =
      setCtx (fun _ => none) 1 (some ⟨"4", true⟩) 2 :=
  claim10_upload_frame (setCtx (fun _ => none) 1 (some ⟨"4", true⟩)) 1
    ⟨"cards.txt", 10, "4111\n"⟩ 2 (by decide)

/-- C7: for every record set `R` (a list of well-formed Records in the sense
of the data model: non-empty, trimmed lines without embedded line boundaries
— exactly what the parser produces, by `mem_cleanLines_isRecord`) and every
non-empty prefix `p`, writing `extract_matching_cards R p` to the output text
format (one record per line, each followed by a newline, no header) and
re-parsing that text yields exactly `extract_matching_cards R p`, order and
content preserved. -/
theorem claim7_write_parse_roundtrip (R : List String) (p : String)
    (_hp : p ≠ "") (hR : ∀ r ∈ R, IsRecord r) :
    cleanLines (writeOut (extract_matching_cards R p)) =
      extract_matching_cards R p :=
  cleanLines_writeOut (extract_matching_cards R p) fun r hr =>
    hR r (List.filter_sublist R |>.subset hr)

/-- Witness for C7 at `R = ["4000111","4000222","5000333"]`, `p = "4000"`. -/
theorem claim7_write_parse_roundtrip_witness :
    cleanLines (writeOut
        (extract_matching_cards ["4000111", "4000222", "5000333"] "4000")) =
      extract_matching_cards ["4000111", "4000222", "5000333"] "4000" :=
  claim7_write_parse_roundtrip ["4000111", "4000222", "5000333"] "4000"
    (by decide) (by decide)

/-- C5: `summarize` computes, for each returned pair, the frequency of the
record's first 4 characters over at most the first 5000 records (records
shorter than 4 characters excluded — both facts are embodied in `pfxSeq`);
it returns at most `topK` pairs, sorted by descending count; every counted
prefix left out has a count no larger than any returned one (so the result
is the top `topK`); and pairs with equal counts appear in the order of first
encounter of their prefix in the analyzed records (stable tie-break:
`dedupFirst (pfxSeq cards)` lists the analyzed prefixes in first-encounter
order). -/
theorem claim5_summarize (cards : List String) (topK : Nat) :
    (∀ pr ∈ summarize cards topK,
        pr.2 = (pfxSeq cards).count pr.1 ∧ pr.1 ∈ pfxSeq cards) ∧
      (summarize cards topK).length ≤ topK ∧
      (summarize cards topK).Sorted countGe ∧
      (∀ q ∈ prefixCounts cards, q ∉ summarize cards topK →
        ∀ pr ∈ summarize cards topK, q.2 ≤ pr.2) ∧
      (∀ a b : String × Nat, List.Sublist [a, b] (summarize cards topK) →
        a.2 = b.2 → List.Sublist [a.1, b.1] (dedupFirst (pfxSeq cards))) := by
  have hperm := List.perm_insertionSort countGe (prefixCounts cards)
  have hsorted := List.sorted_insertionSort countGe (prefixCounts cards)
  refine ⟨?_, ?_, ?_, ?_, ?_⟩
  · intro pr hpr
    have h1 : pr ∈ List.insertionSort countGe (prefixCounts cards) :=
      List.mem_of_mem_take hpr
    have h2 : pr ∈ prefixCounts cards := hperm.mem_iff.mp h1
    rw [prefixCounts_eq] at h2
    obtain ⟨p, hp, rfl⟩ := List.mem_map.mp h2
    exact ⟨rfl, (mem_dedupFirst _ p).mp hp⟩
  · show (List.take topK
        (List.insertionSort countGe (prefixCounts cards))).length ≤ topK
    rw [List.length_take]
    exact min_le_left _ _
  · exact hsorted.sublist
      (List.take_sublist topK (List.insertionSort countGe (prefixCounts cards)))
  · intro q hq hnot pr hpr
    have hq1 : q ∈ List.insertionSort countGe (prefixCounts cards) :=
      hperm.mem_iff.mpr hq
    have hsplit := List.take_append_drop topK
      (List.insertionSort countGe (prefixCounts cards))
    rw [← hsplit] at hq1
    rcases List.mem_append.mp hq1 with hq2 | hq2
    · exact absurd hq2 hnot
    · have hpw : (List.take topK (List.insertionSort countGe (prefixCounts cards)) ++
          List.drop topK (List.insertionSort countGe (prefixCounts cards))).Pairwise
            countGe := by
        rw [hsplit]
        exact hsorted
      exact (List.pairwise_append.mp hpw).2.2 pr hpr q hq2
  · intro a b hab h2
    have hab1 : List.Sublist [a, b]
        (List.insertionSort countGe (prefixCounts cards)) :=
      hab.trans (List.take_sublist topK _)
    have hab2 := hab1.filter (fun y => y.2 = a.2)
    have hself : [a, b].filter (fun y => y.2 = a.2) = [a, b] := by
      simp [List.filter_cons, h2.symm]
    rw [hself, filter_insertionSort] at hab2
    have hab3 : List.Sublist [a, b] (prefixCounts cards) :=
      hab2.trans (List.filter_sublist _)
    have hab4 := hab3.map Prod.fst
    rw [prefixCounts_eq, List.map_map] at hab4
    have hcomp : List.map (Prod.fst ∘ fun p => (p, List.count p (pfxSeq cards)))
        (dedupFirst (pfxSeq cards)) = dedupFirst (pfxSeq cards) := by
      have hid : ∀ x ∈ dedupFirst (pfxSeq cards),
          (Prod.fst ∘ fun p => (p, List.count p (pfxSeq cards))) x = id x :=
        fun x _ => rfl
      rw [List.map_congr_left hid, List.map_id]
    rw [hcomp] at hab4
    exact hab4

/-- Witness for C5 on `["4000a","4000b","5000c","6000d"]` (the spec's own
example extended with a tie): prefix `"4000"` has count 2, the excluded-vs-
included count comparison at `topK = 1`, and the tied pair
`("5000",1), ("6000",1)` keeps first-encounter order. -/
theorem claim5_witness :
    ((("4000", 2) : String × Nat).2 =
        (pfxSeq ["4000a", "4000b", "5000c", "6000d"]).count
          (("4000", 2) : String × Nat).1 ∧
      (("4000", 2) : String × Nat).1 ∈ pfxSeq ["4000a", "4000b", "5000c", "6000d"]) ∧
    (summarize ["4000a", "4000b", "5000c", "6000d"] 3).length ≤ 3 ∧
    (summarize ["4000a", "4000b", "5000c", "6000d"] 3).Sorted countGe ∧
    ((("5000", 1) : String × Nat).2 ≤ (("4000", 2) : String × Nat).2) ∧
    List.Sublist [(("5000", 1) : String × Nat).1, (("6000", 1) : String × Nat).1]
      (dedupFirst (pfxSeq ["4000a", "4000b", "5000c", "6000d"])) :=
  ⟨(claim5_summarize ["4000a", "4000b", "5000c", "6000d"] 3).1
      ("4000", 2) (by decide),
    (claim5_summarize ["4000a", "4000b", "5000c", "6000d"] 3).2.1,
    (claim5_summarize ["4000a", "4000b", "5000c", "6000d"] 3).2.2.1,
    (claim5_summarize ["4000a", "4000b", "5000c", "6000d"] 1).2.2.2.1
      ("5000", 1) (by decide) (by decide) ("4000", 2) (by decide),
    (claim5_summarize ["4000a", "4000b", "5000c", "6000d"] 3).2.2.2.2
      ("5000", 1) ("6000", 1) (by decide) (by decide)⟩
